import Mathlib

/-!
Verification of `src/snippets/snippet.ts` (the `CocSnippet` model of an
expanded TextMate snippet anchored in a buffer).

Conventions of the embedding:
* JavaScript numbers used as line/character coordinates are modelled as `Int`
  (position deltas can be negative); string indices handed to `slice` keep
  JavaScript's clamping semantics via `jsIdx`/`jsSlice`.
* The template tree (`TextmateSnippet` of `./parser`, which is not part of the
  sources) and the helpers from `../util` are modelled from the spec; each such
  definition carries a doc comment starting with "Modelled from the spec:".
* The TypeScript class caches `_placeholders` and recomputes it through
  `update()` at the end of construction and of every mutating method, and no
  method reads the cache between a tree/anchor mutation and the next
  `update()` except as described in the method bodies below.  The cache is
  therefore modelled as the derived function `CocSnippet.placeholders` applied
  to the current `(tmSnippet, position)` state, which is exactly the value the
  cache holds whenever it is read.
-/

/-- A buffer position (0-based line / character), as in
`vscode-languageserver-protocol`. -/
structure Position where
  line : Int
  character : Int
deriving DecidableEq, Repr

/-- A buffer range.  The protocol field `end` is a Lean keyword, so it is
called `stop` here. -/
structure LspRange where
  start : Position
  stop : Position
deriving DecidableEq, Repr

/-- An edit object `{ range, newText }`. -/
structure TextEdit where
  range : LspRange
  newText : String
deriving DecidableEq, Repr

/-- Clamp an (possibly negative) JavaScript slice index into `[0, len]`,
following `String.prototype.slice`: negative indices count from the end. -/
def jsIdx (len : Nat) (i : Int) : Nat :=
  if i < 0 then len - (-i).toNat else min i.toNat len

/-- JavaScript `value.slice(b)` / `value.slice(b, e)` on strings. -/
def jsSlice (s : String) (b : Int) (e : Option Int) : String :=
  let len := s.length
  let bi := jsIdx len b
  let ei := match e with
    | none => len
    | some x => jsIdx len x
  ⟨(s.data.take ei).drop bi⟩

/-- Splice description used by the spec: the unedited prefix of `value` up to
character offset `a`, then the edit text, then the unedited suffix of `value`
from character offset `b` on. -/
def specSplice (value : String) (a b : Nat) (t : String) : String :=
  ⟨value.data.take a ++ t.data ++ value.data.drop b⟩

/-- Modelled from the spec: a placeholder node of the external template tree
(`./parser` is not under the sources).  Per §2/§3 a node carries the
author-assigned tabstop `index`, its current text, an optional transform
(a substitution rule applied to the tabstop's value), the explicit
final-tabstop flag, and an optional choice list. -/
structure TmPlaceholder where
  index : Nat
  value : String
  transform : Option (String → String)
  isFinalTabstop : Bool
  choice : Option (List String)

/-- Modelled from the spec: a node of the rendered template tree, either
literal text or a placeholder occurrence (document order). -/
inductive TmMarker where
  | text (s : String)
  | placeholder (p : TmPlaceholder)

/-- Modelled from the spec: the external template tree, a document-ordered
sequence of markers. -/
structure TextmateSnippet where
  markers : List TmMarker

/-- Apply an optional transform to a value. -/
def applyTransform : Option (String → String) → String → String
  | some f, v => f v
  | none, v => v

/-- Rendered text of one placeholder occurrence: its transform applied to its
current value, or the value itself. -/
def TmPlaceholder.toString (p : TmPlaceholder) : String :=
  applyTransform p.transform p.value

/-- Rendered text of one marker. -/
def TmMarker.toString : TmMarker → String
  | .text s => s
  | .placeholder p => p.toString

/-- Concatenated rendering of a marker list. -/
def renderMarkers : List TmMarker → String
  | [] => ""
  | m :: rest => m.toString ++ renderMarkers rest

/-- Modelled from the spec: `TextmateSnippet.toString`, the tree's current
full text. -/
def TextmateSnippet.toString (ts : TextmateSnippet) : String :=
  renderMarkers ts.markers

/-- The placeholder occurrences of a marker list, in document order. -/
def markersPlaceholders : List TmMarker → List TmPlaceholder
  | [] => []
  | .text _ :: rest => markersPlaceholders rest
  | .placeholder p :: rest => p :: markersPlaceholders rest

/-- Modelled from the spec: `TextmateSnippet.placeholders`, the tree's
placeholder occurrences in document order. -/
def TextmateSnippet.placeholders (ts : TextmateSnippet) : List TmPlaceholder :=
  markersPlaceholders ts.markers

/-- Modelled from the spec: the maximum tabstop index present in the tree
(0 when there is none). -/
def TextmateSnippet.maxIndexNumber (ts : TextmateSnippet) : Nat :=
  (ts.placeholders.map TmPlaceholder.index).foldl Nat.max 0

/-- Map a function over the placeholder occurrences of a marker list, passing
each occurrence its document-order ordinal (starting at `i`). -/
def mapPh (f : Nat → TmPlaceholder → TmPlaceholder) : Nat → List TmMarker → List TmMarker
  | _, [] => []
  | i, .text s :: rest => .text s :: mapPh f i rest
  | i, .placeholder p :: rest => .placeholder (f i p) :: mapPh f (i + 1) rest

/-- Modelled from the spec: overwrite the text of the occurrence with
document-order ordinal `id`, leaving every other node unchanged. -/
def setPh (m : List TmMarker) (id : Nat) (val : String) : List TmMarker :=
  mapPh (fun i p => if i = id then { p with value := val } else p) 0 m

/-- The same indexed map on a plain placeholder list (used to relate marker
level and placeholder-list level statements). -/
def mapIdxFrom (f : Nat → TmPlaceholder → TmPlaceholder) : Nat → List TmPlaceholder → List TmPlaceholder
  | _, [] => []
  | j, p :: rest => f j p :: mapIdxFrom f (j + 1) rest

/-- Modelled from the spec: `TextmateSnippet.updatePlaceholder(id, val)`
overwrites the text of occurrence `id` (its transform, if any, is applied to
the written value when the occurrence renders) and returns the occurrence's
rendered text.  The new tree is returned alongside since the embedding is
pure. -/
def TextmateSnippet.updatePlaceholder (ts : TextmateSnippet) (id : Nat) (val : String) :
    TextmateSnippet × String :=
  let ms := setPh ts.markers id val
  (⟨ms⟩, (((markersPlaceholders ms).get? id).map TmPlaceholder.toString).getD "")

/-- Character offset, in the rendered string, of the `n`-th placeholder
occurrence of a marker list (the sum of the rendered lengths of everything
before it).  Modelled from the spec: the tree exposes "per-node offset within
the rendered string". -/
def offsetOfNth : List TmMarker → Nat → Nat
  | [], _ => 0
  | .text s :: rest, n => s.length + offsetOfNth rest n
  | .placeholder _ :: _, 0 => 0
  | .placeholder p :: rest, n + 1 => (TmMarker.placeholder p).toString.length + offsetOfNth rest n

/-- Number of newlines in a character list. -/
def countNl (l : List Char) : Nat := l.countP (fun c => c = '\n')

/-- Length of the final line of a character list (the characters after the
last newline). -/
def tailLineLen (l : List Char) : Nat :=
  (l.reverse.takeWhile (fun c => c ≠ '\n')).length

/-- The `TextDocument.positionAt` of `vscode-languageserver-textdocument`
(external library): the line/character of a clamped character offset inside
`content`. -/
def positionAt (content : String) (offset : Nat) : Position :=
  let pre := content.data.take (min offset content.length)
  ⟨(countNl pre : Int), (tailLineLen pre : Int)⟩

/-- Set the value of every placeholder occurrence carrying tabstop `index`
(the spec-side description of a cascaded write; text markers and other
tabstops are untouched). -/
def setIndexValue (m : List TmMarker) (index : Nat) (val : String) : List TmMarker :=
  m.map (fun mk => match mk with
    | .text s => .text s
    | .placeholder p => .placeholder (if p.index = index then { p with value := val } else p))

/-- The placeholder view derived by `update()` (`CocSnippetPlaceholder` in the
source).  The non-owning back-reference `snippet` of the source is a pure
relation to the owning model (spec §9) and is not part of the view data. -/
structure CocSnippetPlaceholder where
  index : Nat
  id : Nat
  line : Int
  range : LspRange
  value : String
  isFinalTabstop : Bool
  transform : Bool
  choice : Option (List String)
deriving DecidableEq, Repr

/-- One step of `update()`: the view of the placeholder with document-order
ordinal `idx` at rendered-string offset `offset`, for anchor `anchor` and
rendered text `content`. -/
def mkView (anchor : Position) (content : String) (offset : Nat) (idx : Nat)
    (p : TmPlaceholder) : CocSnippetPlaceholder :=
  let pos := positionAt content offset
  let startLine := anchor.line + pos.line
  let startChar := if pos.line = 0 then anchor.character + pos.character else pos.character
  let value := p.toString
  { index := p.index
    id := idx
    line := startLine
    range := ⟨⟨startLine, startChar⟩, ⟨startLine, startChar + (value.length : Int)⟩⟩
    value := value
    isFinalTabstop := p.isFinalTabstop
    transform := p.transform.isSome
    choice := match p.choice with
      | some opts => if opts.length != 0 then some opts else none
      | none => none }

/-- The indexed map of `update()` over the tree's placeholder list. -/
def viewsFrom (anchor : Position) (content : String) (m : List TmMarker) :
    Nat → List TmPlaceholder → List CocSnippetPlaceholder
  | _, [] => []
  | i, p :: rest =>
    mkView anchor content (offsetOfNth m i) i p :: viewsFrom anchor content m (i + 1) rest

/-- The `CocSnippet` state: the anchor position and the owned template tree. -/
structure CocSnippet where
  tmSnippet : TextmateSnippet
  position : Position

/-- The derived placeholder-view list (the content of the `_placeholders`
cache immediately after any `update()`). -/
def CocSnippet.placeholders (s : CocSnippet) : List CocSnippetPlaceholder :=
  viewsFrom s.position s.tmSnippet.toString s.tmSnippet.markers 0 s.tmSnippet.placeholders

/-- `toString()` of the snippet: the tree's current full text. -/
def CocSnippet.toString (s : CocSnippet) : String :=
  s.tmSnippet.toString

/-- The `range` accessor: from the anchor to the end of the rendered text
(the source adds the end character offset to the anchor character regardless
of the end line, which is kept faithfully here). -/
def CocSnippet.range (s : CocSnippet) : LspRange :=
  let content := s.toString
  let pos := positionAt content content.length
  ⟨s.position, ⟨s.position.line + pos.line, s.position.character + pos.character⟩⟩

/-- `getPlaceholder(index)`: among the occurrences of `index`, the first
non-transform one when present, else the first occurrence, else nothing. -/
def CocSnippet.getPlaceholder (s : CocSnippet) (index : Nat) : Option CocSnippetPlaceholder :=
  let ps := s.placeholders.filter (fun o => o.index == index)
  let notTransformed := ps.filter (fun o => !o.transform)
  match notTransformed with
  | f :: _ => some f
  | [] => ps.head?

/-- `lastPlaceholder`: the view at the tree's maximum tabstop index. -/
def CocSnippet.lastPlaceholder (s : CocSnippet) : Option CocSnippetPlaceholder :=
  s.getPlaceholder s.tmSnippet.maxIndexNumber

/-- `finalPlaceholder`: the first view whose `isFinalTabstop` flag is set. -/
def CocSnippet.finalPlaceholder (s : CocSnippet) : Option CocSnippetPlaceholder :=
  s.placeholders.find? (fun o => o.isFinalTabstop)

/-- `getPrevPlaceholder(index)`: `lastPlaceholder` at 0, else step down over
absent indices. -/
def CocSnippet.getPrevPlaceholder (s : CocSnippet) : Nat → Option CocSnippetPlaceholder
  | 0 => s.lastPlaceholder
  | n + 1 =>
    match s.getPlaceholder n with
    | some p => some p
    | none => s.getPrevPlaceholder n

/-- Fuel-indexed body of `getNextPlaceholder`.  The source recursion steps
`index + 1` until it hits `maxIndexNumber`; for `index ≤ maxIndexNumber` the
fuel `maxIndexNumber - index` makes the embedding compute exactly the source
result (for `index > maxIndexNumber` the source recursion never reaches its
boundary and does not terminate; the embedding returns `none` there). -/
def getNextAux (s : CocSnippet) : Nat → Nat → Option CocSnippetPlaceholder
  | 0, index => if index = s.tmSnippet.maxIndexNumber then s.finalPlaceholder else none
  | fuel + 1, index =>
    if index = s.tmSnippet.maxIndexNumber then s.finalPlaceholder
    else
      match s.getPlaceholder (index + 1) with
      | some p => some p
      | none => getNextAux s fuel (index + 1)

/-- `getNextPlaceholder(index)`: `finalPlaceholder` at the maximum index, else
step up over absent indices. -/
def CocSnippet.getNextPlaceholder (s : CocSnippet) (index : Nat) : Option CocSnippetPlaceholder :=
  getNextAux s (s.tmSnippet.maxIndexNumber - index) index

/-- Step-counting companion of `getPrevPlaceholder`: same result, together
with the number of recursive steps taken. -/
def getPrevCountAux (s : CocSnippet) : Nat → Option CocSnippetPlaceholder × Nat
  | 0 => (s.lastPlaceholder, 0)
  | n + 1 =>
    match s.getPlaceholder n with
    | some p => (some p, 0)
    | none =>
      let r := getPrevCountAux s n
      (r.1, r.2 + 1)

/-- Step-counting companion of `getNextAux`. -/
def getNextCountAux (s : CocSnippet) : Nat → Nat → Option CocSnippetPlaceholder × Nat
  | 0, index => (if index = s.tmSnippet.maxIndexNumber then s.finalPlaceholder else none, 0)
  | fuel + 1, index =>
    if index = s.tmSnippet.maxIndexNumber then (s.finalPlaceholder, 0)
    else
      match s.getPlaceholder (index + 1) with
      | some p => (some p, 0)
      | none =>
        let r := getNextCountAux s fuel (index + 1)
        (r.1, r.2 + 1)

/-- `adjustPosition(characterCount, lineCount)`: shift the anchor; the views
are re-derived from the shifted anchor. -/
def CocSnippet.adjustPosition (s : CocSnippet) (characterCount lineCount : Int) : CocSnippet :=
  { s with position := ⟨s.position.line + lineCount, s.position.character + characterCount⟩ }

/-- Modelled from the spec: `getChangedPosition(start, edit)` of `../util`
(not under the sources) computes the position delta the edit induces at
`start` — when the edit ends at or before `start`, the line delta is the
number of lines added minus the lines removed, and, when the edit ends on the
line of `start`, the character delta at `start`; otherwise zero. -/
def getChangedPosition (start : Position) (edit : TextEdit) : Position :=
  let r := edit.range
  if r.stop.line < start.line ∨ (r.stop.line = start.line ∧ r.stop.character ≤ start.character) then
    let lines := edit.newText.splitOn "\n"
    let lineCount : Int := (lines.length : Int) - (r.stop.line - r.start.line) - 1
    let characterCount : Int :=
      if r.stop.line = start.line then
        if lines.length = 1 then (edit.newText.length : Int) - (r.stop.character - r.start.character)
        else (((lines.getLast?.getD "").length : Int)) - r.stop.character
      else 0
    ⟨lineCount, characterCount⟩
  else ⟨0, 0⟩

/-- `adjustTextEdit(edit)`: report `false` and keep the state when the delta
induced at the snippet's start is zero in both components, else apply the
delta through `adjustPosition` and report `true`. -/
def CocSnippet.adjustTextEdit (s : CocSnippet) (edit : TextEdit) : Bool × CocSnippet :=
  let changed := getChangedPosition s.range.start edit
  if changed.line = 0 ∧ changed.character = 0 then (false, s)
  else (true, s.adjustPosition changed.character changed.line)

/-- The new-occurrence text computed by `updatePlaceholder`: prefix of the
placeholder's value up to the edit start, the edit text, then (only when the
placeholder range ends strictly after the edit) the value's suffix from the
edit end on — all through JavaScript `slice` on absolute character columns. -/
def computeNewText (placeholder : CocSnippetPlaceholder) (edit : TextEdit) : String :=
  let start := edit.range.start
  let e := edit.range.stop
  let pRange := placeholder.range
  let value := placeholder.value
  let endPart :=
    if pRange.stop.character > e.character
    then jsSlice value (e.character - pRange.stop.character) none
    else ""
  jsSlice value 0 (some (start.character - pRange.start.character)) ++ edit.newText ++ endPart

/-- `setPlaceholderValue(id, val)`: write `val` into tree occurrence `id`
(followed in the source by `update()`, which the derived view list subsumes). -/
def CocSnippet.setPlaceholderValue (s : CocSnippet) (id : Nat) (val : String) : CocSnippet :=
  { s with tmSnippet := (s.tmSnippet.updatePlaceholder id val).1 }

/-- One iteration of the mirror loop of `updatePlaceholder`: write `newText`
into occurrence `p.id` of the current tree, and emit a synthetic edit at the
snapshot range `p.range` when the freshly rendered text differs from the
snapshot text `p.value`. -/
def updStep (newText : String) (acc : List TextEdit × TextmateSnippet)
    (p : CocSnippetPlaceholder) : List TextEdit × TextmateSnippet :=
  let r := acc.2.updatePlaceholder p.id newText
  (if r.2 != p.value then acc.1 ++ [⟨p.range, r.2⟩] else acc.1, r.1)

/-- `updatePlaceholder(placeholder, edit)`: splice the edit into the
placeholder's value, write it to the edited occurrence, then walk every other
occurrence of the same tabstop index (as listed by the views derived after the
first write), rewriting each and collecting a synthetic edit for every one
whose rendered text changed. -/
def CocSnippet.updatePlaceholder (s : CocSnippet) (placeholder : CocSnippetPlaceholder)
    (edit : TextEdit) : List TextEdit × CocSnippet :=
  let newText := computeNewText placeholder edit
  let s1 := s.setPlaceholderValue placeholder.id newText
  let others := s1.placeholders.filter
    (fun o => o.index == placeholder.index && o.id != placeholder.id)
  if others.isEmpty then ([], s1)
  else
    let res := others.foldl (updStep newText) ([], s1.tmSnippet)
    (res.1, { s1 with tmSnippet := res.2 })

/-- The no-duplicate-marker decision of `insertSnippet`: `insertFinal` starts
`true` and is cleared exactly when the view with the next sequential id exists
and starts at the insertion position. -/
def CocSnippet.insertSnippetDecision (s : CocSnippet) (placeholder : CocSnippetPlaceholder)
    (position : Position) : Bool :=
  match s.placeholders.get? (placeholder.id + 1) with
  | some next => if next.range.start = position then false else true
  | none => true

/-- `insertSnippet(placeholder, snippet, position)`: compute the character
offset of the insertion position inside the placeholder, take the
no-duplicate-marker decision, and delegate to the tree's insertion operation.
The tree operation itself is external (spec §2/§4.5: it splices the parsed
child template in and returns the id of the first newly introduced
placeholder), so the embedding takes it as the argument `treeInsert`,
quantified over in the theorems. -/
def CocSnippet.insertSnippet (s : CocSnippet)
    (treeInsert : TextmateSnippet → String → Nat → Int → Bool → TextmateSnippet × Nat)
    (placeholder : CocSnippetPlaceholder) (snippet : String) (position : Position) :
    Nat × CocSnippet :=
  let offset := position.character - placeholder.range.start.character
  let insertFinal := s.insertSnippetDecision placeholder position
  let r := treeInsert s.tmSnippet snippet placeholder.id offset insertFinal
  (r.2, { s with tmSnippet := r.1 })

/-- Boolean holder for an optional value (used to state that a lookup result,
when present, satisfies a predicate, without introducing a binder). -/
def optionHolds (p : α → Bool) : Option α → Bool
  | none => true
  | some a => p a

/-- The anchor-independent content of a view: every field except the derived
absolute coordinates (`line`, `range`). -/
def viewContent (v : CocSnippetPlaceholder) :
    Nat × Nat × String × Bool × Bool × Option (List String) :=
  (v.index, v.id, v.value, v.isFinalTabstop, v.transform, v.choice)

/-- Rendered text of the `k`-th placeholder occurrence after writing `val`
into it: its transform applied to `val` (or `""` for an absent ordinal).
This is the "freshly recomputed text" of a mirror/transform in spec §4.4. -/
def txOf (m : List TmMarker) (k : Nat) (val : String) : String :=
  match (markersPlaceholders m).get? k with
  | some q => applyTransform q.transform val
  | none => ""

/-- The `k`-th placeholder occurrence of a marker list. -/
def phAt (m : List TmMarker) (k : Nat) : Option TmPlaceholder :=
  (markersPlaceholders m).get? k

/-- The transforms of the placeholder occurrences, in document order (the
part of the tree that value writes never touch). -/
def phTransforms (m : List TmMarker) : List (Option (String → String)) :=
  (markersPlaceholders m).map TmPlaceholder.transform

/-- Concrete tree for the spec example `foo(${1:bar}, ${2:baz})$0`. -/
def demoMarkers : List TmMarker :=
  [.text "foo(", .placeholder ⟨1, "bar", none, false, none⟩, .text ", ",
   .placeholder ⟨2, "baz", none, false, none⟩, .text ")",
   .placeholder ⟨0, "", none, true, none⟩]

/-- The spec example snippet anchored at the origin. -/
def demoSnippet : CocSnippet := ⟨⟨demoMarkers⟩, ⟨0, 0⟩⟩

/-- Concrete tree with a plain mirror, `${1:ab} ${1:ab}$0`. -/
def mirrorMarkers : List TmMarker :=
  [.placeholder ⟨1, "ab", none, false, none⟩, .text " ",
   .placeholder ⟨1, "ab", none, false, none⟩, .placeholder ⟨0, "", none, true, none⟩]

/-- The mirror snippet anchored at the origin. -/
def mirrorSnippet : CocSnippet := ⟨⟨mirrorMarkers⟩, ⟨0, 0⟩⟩

/-- Concrete tree for the spec example `$1 and ${1/.*/[&]/}` (the transform
wraps the tabstop value in brackets) with the final tabstop appended. -/
def transformMarkers : List TmMarker :=
  [.placeholder ⟨1, "", none, false, none⟩, .text " and ",
   .placeholder ⟨1, "", some (fun s => "[" ++ s ++ "]"), false, none⟩,
   .placeholder ⟨0, "", none, true, none⟩]

/-- The transform snippet anchored at the origin. -/
def transformSnippet : CocSnippet := ⟨⟨transformMarkers⟩, ⟨0, 0⟩⟩

/-- The view of tabstop 1 in the demo snippet, as the spec's example
describes it: value `"bar"`, range (0,4)-(0,7). -/
def demoView1 : CocSnippetPlaceholder :=
  ⟨1, 0, 0, ⟨⟨0, 4⟩, ⟨0, 7⟩⟩, "bar", false, false, none⟩

/-- First view of the mirror snippet. -/
def mirrorView0 : CocSnippetPlaceholder := ⟨1, 0, 0, ⟨⟨0, 0⟩, ⟨0, 2⟩⟩, "ab", false, false, none⟩

/-- An edit ending far beyond the placeholder's end. -/
def spillEdit : TextEdit := ⟨⟨⟨0, 0⟩, ⟨0, 99⟩⟩, "Z"⟩

/-- Edit used by the C3 witness. -/
def spliceEdit : TextEdit := ⟨⟨⟨0, 1⟩, ⟨0, 2⟩⟩, "X"⟩


@[simp] theorem mkView_index (a : Position) (c : String) (off i : Nat) (p : TmPlaceholder) :
    (mkView a c off i p).index = p.index := rfl

@[simp] theorem mkView_id (a : Position) (c : String) (off i : Nat) (p : TmPlaceholder) :
    (mkView a c off i p).id = i := rfl

@[simp] theorem mkView_value (a : Position) (c : String) (off i : Nat) (p : TmPlaceholder) :
    (mkView a c off i p).value = p.toString := rfl

@[simp] theorem mkView_isFinalTabstop (a : Position) (c : String) (off i : Nat)
    (p : TmPlaceholder) : (mkView a c off i p).isFinalTabstop = p.isFinalTabstop := rfl

@[simp] theorem mkView_transform (a : Position) (c : String) (off i : Nat) (p : TmPlaceholder) :
    (mkView a c off i p).transform = p.transform.isSome := rfl

theorem mkView_range (a : Position) (c : String) (off i : Nat) (p : TmPlaceholder) :
    (mkView a c off i p).range =
      ⟨⟨a.line + (positionAt c off).line,
        if (positionAt c off).line = 0 then a.character + (positionAt c off).character
        else (positionAt c off).character⟩,
       ⟨a.line + (positionAt c off).line,
        (if (positionAt c off).line = 0 then a.character + (positionAt c off).character
         else (positionAt c off).character) + (p.toString.length : Int)⟩⟩ := rfl

theorem viewsFrom_get? (a : Position) (c : String) (m : List TmMarker) :
    ∀ (ps : List TmPlaceholder) (j k : Nat),
    (viewsFrom a c m j ps).get? k =
      (ps.get? k).map (fun p => mkView a c (offsetOfNth m (j + k)) (j + k) p) := by
  intro ps
  induction ps with
  | nil => intro j k; simp [viewsFrom]
  | cons p rest ih =>
    intro j k
    cases k with
    | zero => simp [viewsFrom]
    | succ k =>
      have h : j + 1 + k = j + (k + 1) := by omega
      simp only [viewsFrom, List.get?_cons_succ, ih (j + 1) k, h]

theorem placeholders_get? (s : CocSnippet) (i : Nat) :
    s.placeholders.get? i =
      (phAt s.tmSnippet.markers i).map
        (fun p => mkView s.position s.tmSnippet.toString (offsetOfNth s.tmSnippet.markers i) i p) := by
  have h := viewsFrom_get? s.position s.tmSnippet.toString s.tmSnippet.markers
    s.tmSnippet.placeholders 0 i
  simpa [CocSnippet.placeholders, TextmateSnippet.placeholders, phAt] using h

theorem mem_placeholders (s : CocSnippet) (x : CocSnippetPlaceholder) :
    x ∈ s.placeholders ↔
      ∃ i p, phAt s.tmSnippet.markers i = some p ∧
        x = mkView s.position s.tmSnippet.toString (offsetOfNth s.tmSnippet.markers i) i p := by
  rw [List.mem_iff_get?]
  constructor
  · rintro ⟨i, hi⟩
    rw [placeholders_get? s i] at hi
    rcases Option.map_eq_some'.mp hi with ⟨p, hp, hx⟩
    exact ⟨i, p, hp, hx.symm⟩
  · rintro ⟨i, p, hp, hx⟩
    refine ⟨i, ?_⟩
    rw [placeholders_get? s i, hp, hx]
    rfl

theorem mapIdxFrom_get? (f : Nat → TmPlaceholder → TmPlaceholder) :
    ∀ (l : List TmPlaceholder) (j k : Nat),
    (mapIdxFrom f j l).get? k = (l.get? k).map (fun p => f (j + k) p) := by
  intro l
  induction l with
  | nil => intro j k; simp [mapIdxFrom]
  | cons p rest ih =>
    intro j k
    cases k with
    | zero => simp [mapIdxFrom]
    | succ k =>
      have h : j + 1 + k = j + (k + 1) := by omega
      simp only [mapIdxFrom, List.get?_cons_succ, ih (j + 1) k, h]

theorem markersPlaceholders_mapPh (f : Nat → TmPlaceholder → TmPlaceholder) :
    ∀ (m : List TmMarker) (j : Nat),
    markersPlaceholders (mapPh f j m) = mapIdxFrom f j (markersPlaceholders m) := by
  intro m
  induction m with
  | nil => intro j; rfl
  | cons mk rest ih =>
    intro j
    cases mk with
    | text s => simp [mapPh, markersPlaceholders, ih]
    | placeholder p => simp [mapPh, markersPlaceholders, mapIdxFrom, ih]

theorem phAt_setPh (m : List TmMarker) (id : Nat) (v : String) (k : Nat) :
    phAt (setPh m id v) k =
      (phAt m k).map (fun p => if k = id then { p with value := v } else p) := by
  rw [phAt, setPh, markersPlaceholders_mapPh, mapIdxFrom_get?]
  simp only [Nat.zero_add]
  rfl

theorem mapPh_comp (f g : Nat → TmPlaceholder → TmPlaceholder) :
    ∀ (m : List TmMarker) (j : Nat),
    mapPh f j (mapPh g j m) = mapPh (fun i p => f i (g i p)) j m := by
  intro m
  induction m with
  | nil => intro j; rfl
  | cons mk rest ih =>
    intro j
    cases mk with
    | text s => simp [mapPh, ih]
    | placeholder p => simp [mapPh, ih]

theorem mapPh_congr :
    ∀ (m : List TmMarker) (j : Nat) (f g : Nat → TmPlaceholder → TmPlaceholder),
    (∀ k p, phAt m k = some p → f (j + k) p = g (j + k) p) → mapPh f j m = mapPh g j m := by
  intro m
  induction m with
  | nil => intro j f g _; rfl
  | cons mk rest ih =>
    intro j f g h
    cases mk with
    | text s =>
      simp only [mapPh]
      rw [ih j f g]
      intro k p hp
      exact h k p (by simpa [phAt, markersPlaceholders] using hp)
    | placeholder p =>
      simp only [mapPh]
      have hhead : f j p = g j p := by
        have := h 0 p (by simp [phAt, markersPlaceholders])
        simpa using this
      rw [hhead, ih (j + 1) f g]
      intro k q hq
      have := h (k + 1) q (by simpa [phAt, markersPlaceholders] using hq)
      have harith : j + 1 + k = j + (k + 1) := by omega
      rw [harith]
      exact this

theorem mapPh_id : ∀ (m : List TmMarker) (j : Nat), mapPh (fun _ p => p) j m = m := by
  intro m
  induction m with
  | nil => intro j; rfl
  | cons mk rest ih =>
    intro j
    cases mk with
    | text s => simp [mapPh, ih]
    | placeholder p => simp [mapPh, ih]

theorem setIndexValue_eq_mapPh (idx : Nat) (v : String) :
    ∀ (m : List TmMarker) (j : Nat),
    setIndexValue m idx v =
      mapPh (fun _ p => if p.index = idx then { p with value := v } else p) j m := by
  intro m
  induction m with
  | nil => intro j; rfl
  | cons mk rest ih =>
    intro j
    cases mk with
    | text s => simp [setIndexValue, mapPh] at ih ⊢; exact ih j
    | placeholder p => simp [setIndexValue, mapPh] at ih ⊢; exact ih (j + 1)

theorem foldl_updStep_snd (nv : String) :
    ∀ (ps : List CocSnippetPlaceholder) (acc : List TextEdit) (t : TextmateSnippet),
    ((ps.foldl (updStep nv) (acc, t)).2).markers =
      ps.foldl (fun mm q => setPh mm q.id nv) t.markers := by
  intro ps
  induction ps with
  | nil => intro acc t; rfl
  | cons q rest ih =>
    intro acc t
    simp only [List.foldl_cons]
    rw [ih]
    rfl

theorem foldl_setPh_eq (v : String) :
    ∀ (ps : List CocSnippetPlaceholder) (m : List TmMarker),
    ps.foldl (fun mm q => setPh mm q.id v) m =
      mapPh (fun i p => if i ∈ ps.map (fun o => o.id) then { p with value := v } else p) 0 m := by
  intro ps
  induction ps with
  | nil =>
    intro m
    simp only [List.foldl_nil, List.map_nil]
    rw [mapPh_congr m 0 _ (fun _ p => p) (by intro k p _; simp), mapPh_id]
  | cons q rest ih =>
    intro m
    simp only [List.foldl_cons, List.map_cons]
    rw [ih, setPh, mapPh_comp]
    apply mapPh_congr
    intro k p _
    rcases p with ⟨pi, pv, pt, pf, pc⟩
    by_cases h1 : k ∈ rest.map (fun o => o.id) <;> by_cases h2 : k = q.id <;>
      simp [h1, h2, List.mem_cons]

theorem map_transform_mapIdxFrom (f : Nat → TmPlaceholder → TmPlaceholder)
    (hf : ∀ i p, (f i p).transform = p.transform) :
    ∀ (l : List TmPlaceholder) (j : Nat),
    (mapIdxFrom f j l).map TmPlaceholder.transform = l.map TmPlaceholder.transform := by
  intro l
  induction l with
  | nil => intro j; rfl
  | cons p rest ih => intro j; simp [mapIdxFrom, hf, ih]

theorem phTransforms_setPh (m : List TmMarker) (id : Nat) (v : String) :
    phTransforms (setPh m id v) = phTransforms m := by
  rw [phTransforms, setPh, markersPlaceholders_mapPh, map_transform_mapIdxFrom]
  · rfl
  · intro i p
    by_cases h : i = id <;> simp [h]

theorem updatePlaceholder_snd (t : TextmateSnippet) (id : Nat) (nv : String) :
    (t.updatePlaceholder id nv).2 = txOf t.markers id nv := by
  rw [TextmateSnippet.updatePlaceholder, txOf]
  have h := phAt_setPh t.markers id nv id
  simp only [phAt] at h
  simp only [h]
  cases e : (markersPlaceholders t.markers).get? id with
  | none => rfl
  | some p => simp [TmPlaceholder.toString]

theorem txOf_congr (m m2 : List TmMarker) (h : phTransforms m = phTransforms m2) (k : Nat)
    (nv : String) : txOf m k nv = txOf m2 k nv := by
  have h1 : (phTransforms m).get? k = (phTransforms m2).get? k := by rw [h]
  simp only [phTransforms, List.get?_map] at h1
  rw [txOf, txOf]
  cases e1 : (markersPlaceholders m).get? k with
  | none =>
    cases e2 : (markersPlaceholders m2).get? k with
    | none => rfl
    | some q => rw [e1, e2] at h1; simp at h1
  | some p =>
    cases e2 : (markersPlaceholders m2).get? k with
    | none => rw [e1, e2] at h1; simp at h1
    | some q =>
      rw [e1, e2] at h1
      simp only [Option.map_some'] at h1
      rw [Option.some.injEq] at h1
      show applyTransform p.transform nv = applyTransform q.transform nv
      rw [h1]

theorem foldl_updStep_fst (nv : String) (base : List TmMarker) :
    ∀ (ps : List CocSnippetPlaceholder) (acc : List TextEdit) (t : TextmateSnippet),
    phTransforms t.markers = phTransforms base →
    (ps.foldl (updStep nv) (acc, t)).1 =
      acc ++ ps.filterMap (fun p =>
        if txOf base p.id nv != p.value then some ⟨p.range, txOf base p.id nv⟩ else none) := by
  intro ps
  induction ps with
  | nil => intro acc t _; simp
  | cons q rest ih =>
    intro acc t h
    have htx : (t.updatePlaceholder q.id nv).2 = txOf base q.id nv := by
      rw [updatePlaceholder_snd, txOf_congr t.markers base h]
    have hskel : phTransforms (t.updatePlaceholder q.id nv).1.markers = phTransforms base := by
      show phTransforms (setPh t.markers q.id nv) = phTransforms base
      rw [phTransforms_setPh, h]
    have hstep : updStep nv (acc, t) q =
        (if txOf base q.id nv != q.value then acc ++ [⟨q.range, txOf base q.id nv⟩] else acc,
         (t.updatePlaceholder q.id nv).1) := by
      simp only [updStep, htx]
    simp only [List.foldl_cons, List.filterMap_cons, hstep]
    by_cases hb : (txOf base q.id nv != q.value) = true
    · simp only [if_pos hb, hb]
      rw [ih _ _ hskel]
      simp [List.append_assoc]
    · simp only [if_neg hb, hb]
      rw [ih _ _ hskel]
      simp at hb
      simp [hb]

theorem mem_ids_filter (s : CocSnippet) (idx id0 i : Nat) :
    (i ∈ (s.placeholders.filter (fun o => o.index == idx && o.id != id0)).map
        (fun o => o.id)) ↔
      (∃ p, phAt s.tmSnippet.markers i = some p ∧ p.index = idx ∧ i ≠ id0) := by
  rw [List.mem_map]
  constructor
  · rintro ⟨v, hv, hid⟩
    rcases List.mem_filter.mp hv with ⟨hmem, hpred⟩
    rcases (mem_placeholders s v).mp hmem with ⟨k, p, hk, hview⟩
    subst hview
    simp only [mkView_id] at hid
    subst hid
    simp only [mkView_index, mkView_id, Bool.and_eq_true, beq_iff_eq, bne_iff_ne,
      ne_eq] at hpred
    exact ⟨p, hk, hpred.1, hpred.2⟩
  · rintro ⟨p, hp, hidx, hne⟩
    refine ⟨mkView s.position s.tmSnippet.toString (offsetOfNth s.tmSnippet.markers i) i p,
      ?_, by simp⟩
    rw [List.mem_filter]
    refine ⟨(mem_placeholders s _).mpr ⟨i, p, hp, rfl⟩, ?_⟩
    simp [hidx, hne]

theorem viewsFrom_map_content (a b : Position) (c : String) (m : List TmMarker) :
    ∀ (ps : List TmPlaceholder) (j : Nat),
    (viewsFrom a c m j ps).map viewContent = (viewsFrom b c m j ps).map viewContent := by
  intro ps
  induction ps with
  | nil => intro j; rfl
  | cons p rest ih =>
    intro j
    simp only [viewsFrom, List.map_cons]
    rw [ih (j + 1)]
    rfl

/-- Claim C8: `adjustPosition(dc, dl)` followed by `adjustPosition(-dc, -dl)`
with no structural change in between restores the snippet state exactly, and
with it every placeholder view's id, range and value. -/
theorem adjustPosition_roundtrip (s : CocSnippet) (dc dl : Int) :
    (s.adjustPosition dc dl).adjustPosition (-dc) (-dl) = s ∧
    ((s.adjustPosition dc dl).adjustPosition (-dc) (-dl)).placeholders = s.placeholders := by
  have h : (s.adjustPosition dc dl).adjustPosition (-dc) (-dl) = s := by
    rcases s with ⟨tm, ⟨l, c⟩⟩
    simp [CocSnippet.adjustPosition]
  exact ⟨h, by rw [h]⟩

/-- Claim C9: `adjustPosition` changes only the anchor and the derived
absolute coordinates: the rendered text and every view's index, id, value,
final-tabstop flag, transform flag and choice list are unchanged. -/
theorem adjustPosition_frame (s : CocSnippet) (dc dl : Int) :
    (s.adjustPosition dc dl).toString = s.toString ∧
    (s.adjustPosition dc dl).placeholders.map viewContent =
      s.placeholders.map viewContent := by
  refine ⟨rfl, ?_⟩
  show (viewsFrom (s.adjustPosition dc dl).position s.tmSnippet.toString s.tmSnippet.markers 0
      s.tmSnippet.placeholders).map viewContent = _
  exact viewsFrom_map_content _ s.position s.tmSnippet.toString s.tmSnippet.markers
    s.tmSnippet.placeholders 0

/-- Claim C1, counterexample: in the spec's own example tree
`foo(${1:bar}, ${2:baz})$0`, `getPrevPlaceholder(0)` returns the placeholder
at the maximum tabstop index 2, whose `isFinalTabstop` flag is `false`, even
though a view with `isFinalTabstop = true` exists. -/
theorem getPrevPlaceholder_zero_not_final :
    (demoSnippet.getPrevPlaceholder 0).map (fun v => v.isFinalTabstop) = some false ∧
    demoSnippet.finalPlaceholder.map (fun v => v.isFinalTabstop) = some true := by
  constructor <;> decide

/-- Claim C1 (amended): `getPrevPlaceholder(0)` returns `lastPlaceholder`,
the view at the tree's maximum tabstop index (which need not be the final
tabstop); `getNextPlaceholder` at the maximum tabstop index returns the final
tabstop (the view whose `isFinalTabstop` flag is true, whenever one exists). -/
theorem nav_boundary_behavior (s : CocSnippet) :
    s.getPrevPlaceholder 0 = s.lastPlaceholder ∧
    s.getNextPlaceholder s.tmSnippet.maxIndexNumber = s.finalPlaceholder ∧
    optionHolds (fun v => v.isFinalTabstop) s.finalPlaceholder = true := by
  refine ⟨rfl, ?_, ?_⟩
  · rw [CocSnippet.getNextPlaceholder, Nat.sub_self]
    simp [getNextAux]
  · rw [CocSnippet.finalPlaceholder]
    cases e : s.placeholders.find? (fun o => o.isFinalTabstop) with
    | none => rfl
    | some v =>
      have hv := List.find?_some e
      simp [optionHolds, hv]

/-- Claim C6: `adjustTextEdit(edit)` returns `false` and keeps the state
exactly when the delta the edit induces at the snippet's start is zero in
both components; otherwise it adds exactly that delta to the anchor (via
`adjustPosition`) and returns `true`. -/
theorem adjustTextEdit_spec (s : CocSnippet) (edit : TextEdit) :
    s.adjustTextEdit edit =
      (if getChangedPosition s.position edit = (⟨0, 0⟩ : Position) then (false, s)
       else (true, { s with position :=
          ⟨s.position.line + (getChangedPosition s.position edit).line,
           s.position.character + (getChangedPosition s.position edit).character⟩ })) := by
  simp only [CocSnippet.adjustTextEdit, CocSnippet.adjustPosition]
  have hstart : s.range.start = s.position := rfl
  rw [hstart]
  cases hgp : getChangedPosition s.position edit with
  | mk cl cc =>
    by_cases h : cl = 0 ∧ cc = 0
    · rcases h with ⟨h1, h2⟩
      subst h1; subst h2
      simp
    · have h1 : ¬((⟨cl, cc⟩ : Position).line = 0 ∧ (⟨cl, cc⟩ : Position).character = 0) := by
        simpa using h
      have h2 : ¬((⟨cl, cc⟩ : Position) = (⟨0, 0⟩ : Position)) := by
        intro he
        rw [Position.mk.injEq] at he
        exact h he
      rw [if_neg h1, if_neg h2]

/-- Claim C2: each derived placeholder view's range comes from its offset in
the rendered text: start line = anchor line + the offset's line; start
character adds the anchor's character exactly on the first rendered line; the
end is on the start's line at start character + value length, so the range's
end never precedes its start. -/
theorem update_range_derivation (s : CocSnippet) (i : Nat) (p : TmPlaceholder)
    (v : CocSnippetPlaceholder)
    (hp : phAt s.tmSnippet.markers i = some p)
    (hv : s.placeholders.get? i = some v) :
    v.value = p.toString ∧
    v.range.start.line = s.position.line +
      (positionAt s.tmSnippet.toString (offsetOfNth s.tmSnippet.markers i)).line ∧
    v.range.start.character =
      (if (positionAt s.tmSnippet.toString (offsetOfNth s.tmSnippet.markers i)).line = 0
       then s.position.character +
         (positionAt s.tmSnippet.toString (offsetOfNth s.tmSnippet.markers i)).character
       else (positionAt s.tmSnippet.toString (offsetOfNth s.tmSnippet.markers i)).character) ∧
    v.range.stop.line = v.range.start.line ∧
    v.range.stop.character = v.range.start.character + (v.value.length : Int) ∧
    v.range.start.character ≤ v.range.stop.character := by
  rw [placeholders_get? s i, hp] at hv
  simp only [Option.map_some'] at hv
  rw [Option.some.injEq] at hv
  subst hv
  refine ⟨rfl, rfl, rfl, rfl, rfl, ?_⟩
  show (_ : Int) ≤ _ + ((TmPlaceholder.toString p).length : Int)
  exact le_add_of_nonneg_right (Int.natCast_nonneg _)

/-- Witness for claim C2 at the spec example `foo(${1:bar}, ${2:baz})$0`. -/
theorem update_range_derivation_witness :
    demoSnippet.placeholders.get? 0 = some demoView1 ∧
    demoView1.range.stop.line = demoView1.range.start.line ∧
    demoView1.range.stop.character =
      demoView1.range.start.character + (demoView1.value.length : Int) ∧
    demoView1.range.start.character ≤ demoView1.range.stop.character := by
  have h := update_range_derivation demoSnippet 0 ⟨1, "bar", none, false, none⟩ demoView1
    rfl (by decide)
  exact ⟨by decide, h.2.2.2.1, h.2.2.2.2.1, h.2.2.2.2.2⟩

theorem getPrevCountAux_spec (s : CocSnippet) :
    ∀ n, (getPrevCountAux s n).1 = s.getPrevPlaceholder n ∧ (getPrevCountAux s n).2 ≤ n := by
  intro n
  induction n with
  | zero => exact ⟨rfl, Nat.le_refl 0⟩
  | succ n ih =>
    simp only [getPrevCountAux, CocSnippet.getPrevPlaceholder]
    cases e : s.getPlaceholder n with
    | some p => simp
    | none =>
      simp only []
      refine ⟨ih.1, ?_⟩
      have := ih.2
      omega

theorem getNextCountAux_spec (s : CocSnippet) :
    ∀ (fuel index : Nat),
    (getNextCountAux s fuel index).1 = getNextAux s fuel index ∧
    (getNextCountAux s fuel index).2 ≤ fuel := by
  intro fuel
  induction fuel with
  | zero => intro index; exact ⟨rfl, Nat.le_refl 0⟩
  | succ fuel ih =>
    intro index
    simp only [getNextCountAux, getNextAux]
    by_cases h : index = s.tmSnippet.maxIndexNumber
    · simp [h]
    · simp only [if_neg h]
      cases e : s.getPlaceholder (index + 1) with
      | some p => simp
      | none =>
        simp only []
        refine ⟨(ih (index + 1)).1, ?_⟩
        have := (ih (index + 1)).2
        omega

/-- Claim C7: for `0 ≤ index ≤ maxIndexNumber`, both navigation functions
terminate, with at most `index` steps downward and at most
`maxIndexNumber - index` steps upward, even across absent (sparse) indices. -/
theorem nav_bounded_steps (s : CocSnippet) (index : Nat)
    (h : index ≤ s.tmSnippet.maxIndexNumber) :
    (getPrevCountAux s index).1 = s.getPrevPlaceholder index ∧
    (getPrevCountAux s index).2 ≤ index ∧
    (getNextCountAux s (s.tmSnippet.maxIndexNumber - index) index).1 =
      s.getNextPlaceholder index ∧
    (getNextCountAux s (s.tmSnippet.maxIndexNumber - index) index).2 ≤
      s.tmSnippet.maxIndexNumber - index := by
  exact ⟨(getPrevCountAux_spec s index).1, (getPrevCountAux_spec s index).2,
    (getNextCountAux_spec s _ index).1, (getNextCountAux_spec s _ index).2⟩

/-- Witness for claim C7 at the demo snippet with sparse step target 1. -/
theorem nav_bounded_steps_witness :
    (1 ≤ demoSnippet.tmSnippet.maxIndexNumber) ∧
    (getPrevCountAux demoSnippet 1).2 ≤ 1 ∧
    (getNextCountAux demoSnippet (demoSnippet.tmSnippet.maxIndexNumber - 1) 1).2 ≤
      demoSnippet.tmSnippet.maxIndexNumber - 1 := by
  have h := nav_bounded_steps demoSnippet 1 (by decide)
  exact ⟨by decide, h.2.1, h.2.2.2⟩

/-- Claim C5: `insertSnippet` skips the duplicate trailing marker exactly when
the view with the next sequential id exists and starts at the insertion
position; it hands the tree operation the snippet string, the placeholder id,
the character offset and that decision, stores the returned tree, keeps the
anchor, and returns the id the tree operation reports for the first newly
introduced placeholder. -/
theorem insertSnippet_spec (s : CocSnippet)
    (treeInsert : TextmateSnippet → String → Nat → Int → Bool → TextmateSnippet × Nat)
    (ph : CocSnippetPlaceholder) (snip : String) (pos : Position) :
    ((s.insertSnippetDecision ph pos = false) ↔
      (∃ next, s.placeholders.get? (ph.id + 1) = some next ∧ next.range.start = pos)) ∧
    (s.insertSnippet treeInsert ph snip pos).1 =
      (treeInsert s.tmSnippet snip ph.id (pos.character - ph.range.start.character)
        (s.insertSnippetDecision ph pos)).2 ∧
    (s.insertSnippet treeInsert ph snip pos).2.tmSnippet =
      (treeInsert s.tmSnippet snip ph.id (pos.character - ph.range.start.character)
        (s.insertSnippetDecision ph pos)).1 ∧
    (s.insertSnippet treeInsert ph snip pos).2.position = s.position := by
  refine ⟨?_, rfl, rfl, rfl⟩
  rw [CocSnippet.insertSnippetDecision]
  cases e : s.placeholders.get? (ph.id + 1) with
  | none =>
    simp only []
    constructor
    · intro hfalse; cases hfalse
    · rintro ⟨next, hnext, _⟩
      exact Option.noConfusion hnext
  | some next =>
    simp only []
    by_cases h : next.range.start = pos
    · rw [if_pos h]
      exact ⟨fun _ => ⟨next, e ▸ rfl, h⟩, fun _ => rfl⟩
    · rw [if_neg h]
      constructor
      · intro ht; cases ht
      · rintro ⟨nx, hnx, hs⟩
        rw [Option.some.injEq] at hnx
        subst hnx
        exact absurd hs h

theorem view_node (s : CocSnippet) (ph : CocSnippetPlaceholder)
    (hview : s.placeholders.get? ph.id = some ph) :
    ∃ p, phAt s.tmSnippet.markers ph.id = some p ∧ p.index = ph.index ∧
      p.transform.isSome = ph.transform ∧ p.toString = ph.value ∧
      ph.range.stop.character = ph.range.start.character + (ph.value.length : Int) := by
  rw [placeholders_get?] at hview
  rcases Option.map_eq_some'.mp hview with ⟨p, hp, he⟩
  refine ⟨p, hp, ?_, ?_, ?_, ?_⟩ <;> rw [← he] <;> rfl

theorem mk_append_mk (x y : List Char) : String.mk x ++ String.mk y = String.mk (x ++ y) := rfl

theorem updatePlaceholder_markers (s : CocSnippet) (ph : CocSnippetPlaceholder)
    (edit : TextEdit) :
    (s.updatePlaceholder ph edit).2.tmSnippet.markers =
      mapPh (fun i p =>
        if i ∈ (((s.setPlaceholderValue ph.id (computeNewText ph edit)).placeholders.filter
              (fun o => o.index == ph.index && o.id != ph.id)).map (fun o => o.id)) ∨ i = ph.id
        then { p with value := computeNewText ph edit } else p) 0 s.tmSnippet.markers := by
  simp only [CocSnippet.updatePlaceholder]
  set nv := computeNewText ph edit with hnv
  set s1 := s.setPlaceholderValue ph.id nv with hs1
  set others := s1.placeholders.filter (fun o => o.index == ph.index && o.id != ph.id)
    with hoth
  by_cases hemp : others.isEmpty
  · rw [if_pos hemp]
    have hids : others.map (fun o => o.id) = [] := by
      rw [List.isEmpty_iff] at hemp
      rw [hemp]
      rfl
    rw [hids]
    show setPh s.tmSnippet.markers ph.id nv = _
    rw [setPh]
    apply mapPh_congr
    intro k p _
    simp only [Nat.zero_add, List.not_mem_nil, false_or]
  · rw [if_neg hemp]
    show ((others.foldl (updStep nv) ([], s1.tmSnippet)).2).markers = _
    rw [foldl_updStep_snd, foldl_setPh_eq]
    show mapPh _ 0 (setPh s.tmSnippet.markers ph.id nv) = _
    rw [setPh, mapPh_comp]
    apply mapPh_congr
    intro k p _
    simp only [Nat.zero_add]
    rcases p with ⟨pi, pv, pt, pf, pc⟩
    by_cases h1 : k ∈ others.map (fun o => o.id) <;> by_cases h2 : k = ph.id <;>
      simp [h1, h2]

theorem updatePlaceholder_phAt (s : CocSnippet) (ph : CocSnippetPlaceholder)
    (edit : TextEdit) (k : Nat) :
    phAt (s.updatePlaceholder ph edit).2.tmSnippet.markers k =
      (phAt s.tmSnippet.markers k).map (fun p =>
        if k ∈ (((s.setPlaceholderValue ph.id (computeNewText ph edit)).placeholders.filter
              (fun o => o.index == ph.index && o.id != ph.id)).map (fun o => o.id)) ∨ k = ph.id
        then { p with value := computeNewText ph edit } else p) := by
  rw [updatePlaceholder_markers, phAt, markersPlaceholders_mapPh, mapIdxFrom_get?]
  simp only [Nat.zero_add]
  rfl

theorem mapIdxFrom_length (f : Nat → TmPlaceholder → TmPlaceholder) :
    ∀ (l : List TmPlaceholder) (j : Nat), (mapIdxFrom f j l).length = l.length := by
  intro l
  induction l with
  | nil => intro j; rfl
  | cons p rest ih => intro j; simp [mapIdxFrom, ih]

theorem jsSlice_zero_some (v : String) (d : Int) :
    jsSlice v 0 (some d) = ⟨v.data.take (jsIdx v.length d)⟩ := by
  have hz : jsIdx v.length 0 = 0 := by simp [jsIdx]
  simp [jsSlice, hz]

theorem string_append_empty (s : String) : s ++ "" = s := by
  rcases s with ⟨l⟩
  show String.mk (l ++ []) = String.mk l
  rw [List.append_nil]

/-- Claim C10: `updatePlaceholder` validates nothing (the splice, like the
source, is total for every edit — nothing can be raised); whenever the edit
range's end column is at or past the placeholder range's end column, the
unedited suffix is empty, so the edited occurrence's stored text becomes the
unedited prefix of its old value followed by the edit text with nothing
appended.  The placeholder count is also untouched. -/
theorem updatePlaceholder_no_validation (s : CocSnippet) (ph : CocSnippetPlaceholder)
    (edit : TextEdit)
    (hview : s.placeholders.get? ph.id = some ph)
    (hend : ph.range.stop.character ≤ edit.range.stop.character) :
    (phAt (s.updatePlaceholder ph edit).2.tmSnippet.markers ph.id).map TmPlaceholder.value =
      some ((⟨ph.value.data.take (jsIdx ph.value.length
          (edit.range.start.character - ph.range.start.character))⟩ : String) ++ edit.newText) ∧
    ((s.updatePlaceholder ph edit).2.tmSnippet.placeholders).length =
      s.tmSnippet.placeholders.length := by
  have hnv : computeNewText ph edit =
      (⟨ph.value.data.take (jsIdx ph.value.length
        (edit.range.start.character - ph.range.start.character))⟩ : String) ++ edit.newText := by
    simp only [computeNewText]
    rw [if_neg (not_lt.mpr hend), jsSlice_zero_some, string_append_empty]
  constructor
  · rcases view_node s ph hview with ⟨p, hp, _, _, _, _⟩
    rw [updatePlaceholder_phAt, hp]
    simp only [Option.map_some']
    rw [if_pos (Or.inr trivial)]
    simp only [Option.some.injEq]
    show computeNewText ph edit = _
    exact hnv
  · show (markersPlaceholders (s.updatePlaceholder ph edit).2.tmSnippet.markers).length = _
    rw [updatePlaceholder_markers, markersPlaceholders_mapPh, mapIdxFrom_length]
    rfl

/-- Witness for claim C10: an edit whose end column (99) is far past the
placeholder's end column (2) yields occurrence text `"Z"` with no suffix. -/
theorem updatePlaceholder_no_validation_witness :
    mirrorView0.range.stop.character ≤ spillEdit.range.stop.character ∧
    (phAt (mirrorSnippet.updatePlaceholder mirrorView0 spillEdit).2.tmSnippet.markers
      mirrorView0.id).map TmPlaceholder.value = some "Z" := by
  refine ⟨by decide, ?_⟩
  rw [(updatePlaceholder_no_validation mirrorSnippet mirrorView0 spillEdit (by decide)
    (by decide)).1]
  decide

theorem jsSlice_neg_none (v : String) (i : Int) (hi : i < 0) :
    jsSlice v i none = ⟨v.data.drop (v.length - (-i).toNat)⟩ := by
  simp only [jsSlice, jsIdx, if_pos hi]
  rw [show v.length = v.data.length from rfl, List.take_length]

theorem mk_append3 (x y : List Char) (t : String) :
    (⟨x⟩ : String) ++ t ++ (⟨y⟩ : String) = ⟨x ++ t.data ++ y⟩ := by
  rcases t with ⟨td⟩
  rw [mk_append_mk, mk_append_mk]

theorem computeNewText_eq_specSplice (ph : CocSnippetPlaceholder) (edit : TextEdit)
    (hlen : ph.range.stop.character = ph.range.start.character + (ph.value.length : Int))
    (h1 : ph.range.start.character ≤ edit.range.start.character)
    (h2 : edit.range.start.character ≤ edit.range.stop.character)
    (h3 : edit.range.stop.character ≤ ph.range.stop.character) :
    computeNewText ph edit =
      specSplice ph.value (edit.range.start.character - ph.range.start.character).toNat
        (edit.range.stop.character - ph.range.start.character).toNat edit.newText := by
  simp only [computeNewText, specSplice]
  have ha : jsIdx ph.value.length (edit.range.start.character - ph.range.start.character)
      = (edit.range.start.character - ph.range.start.character).toNat := by
    simp only [jsIdx]
    rw [if_neg (by omega)]
    exact min_eq_left (by omega)
  rw [jsSlice_zero_some, ha]
  by_cases hgt : ph.range.stop.character > edit.range.stop.character
  · rw [if_pos hgt, jsSlice_neg_none _ _ (by omega), mk_append3]
    have hb : ph.value.length - (-(edit.range.stop.character - ph.range.stop.character)).toNat
        = (edit.range.stop.character - ph.range.start.character).toNat := by omega
    rw [hb]
  · rw [if_neg hgt, string_append_empty]
    have hb : (edit.range.stop.character - ph.range.start.character).toNat
        = ph.value.length := by omega
    rw [hb, show ph.value.length = ph.value.data.length from rfl, List.drop_length,
      List.append_nil]
    exact mk_append_mk _ edit.newText.data

theorem markersPlaceholders_setIndexValue (idx : Nat) (v : String) :
    ∀ (m : List TmMarker),
    markersPlaceholders (setIndexValue m idx v) =
      (markersPlaceholders m).map
        (fun p => if p.index = idx then { p with value := v } else p) := by
  intro m
  induction m with
  | nil => rfl
  | cons mk rest ih =>
    cases mk with
    | text s => simp [setIndexValue, markersPlaceholders] at ih ⊢; exact ih
    | placeholder p => simp [setIndexValue, markersPlaceholders] at ih ⊢; exact ih

/-- Claim C3: with the edit confined to the placeholder's columns, the edited
occurrence's new text is exactly unedited-prefix + edit text + unedited-suffix
spliced at the edit's offsets relative to the placeholder start; the whole
tree afterwards is the original with every occurrence of the edited tabstop
index set to that splice, so `toString()` renders the spliced text at the
edited occurrence and every mirror/transform of the index reflects its
recomputed text. -/
theorem updatePlaceholder_splice (s : CocSnippet) (ph : CocSnippetPlaceholder)
    (edit : TextEdit)
    (hview : s.placeholders.get? ph.id = some ph)
    (htr : ph.transform = false)
    (h1 : ph.range.start.character ≤ edit.range.start.character)
    (h2 : edit.range.start.character ≤ edit.range.stop.character)
    (h3 : edit.range.stop.character ≤ ph.range.stop.character) :
    (s.updatePlaceholder ph edit).2.tmSnippet.markers =
      setIndexValue s.tmSnippet.markers ph.index
        (specSplice ph.value (edit.range.start.character - ph.range.start.character).toNat
          (edit.range.stop.character - ph.range.start.character).toNat edit.newText) ∧
    (phAt (s.updatePlaceholder ph edit).2.tmSnippet.markers ph.id).map TmPlaceholder.toString =
      some (specSplice ph.value (edit.range.start.character - ph.range.start.character).toNat
        (edit.range.stop.character - ph.range.start.character).toNat edit.newText) ∧
    (s.updatePlaceholder ph edit).2.toString =
      TextmateSnippet.toString
        ⟨setIndexValue s.tmSnippet.markers ph.index
          (specSplice ph.value (edit.range.start.character - ph.range.start.character).toNat
            (edit.range.stop.character - ph.range.start.character).toNat edit.newText)⟩ ∧
    (markersPlaceholders (s.updatePlaceholder ph edit).2.tmSnippet.markers).map
        (fun q => if q.index = ph.index then some q.value else none) =
      (markersPlaceholders s.tmSnippet.markers).map
        (fun q => if q.index = ph.index then
          some (specSplice ph.value
            (edit.range.start.character - ph.range.start.character).toNat
            (edit.range.stop.character - ph.range.start.character).toNat edit.newText)
          else none) := by
  rcases view_node s ph hview with ⟨p0, hp0, hidx0, htr0, hval0, hlen⟩
  have hp0none : p0.transform = none := by
    cases e : p0.transform with
    | none => rfl
    | some f =>
      rw [e] at htr0
      rw [htr] at htr0
      simp at htr0
  have hnv := computeNewText_eq_specSplice ph edit hlen h1 h2 h3
  set spl := specSplice ph.value (edit.range.start.character - ph.range.start.character).toNat
    (edit.range.stop.character - ph.range.start.character).toNat edit.newText with hspl
  have hphAt1 : ∀ j, phAt (s.setPlaceholderValue ph.id spl).tmSnippet.markers j =
      (phAt s.tmSnippet.markers j).map
        (fun q => if j = ph.id then { q with value := spl } else q) :=
    fun j => phAt_setPh s.tmSnippet.markers ph.id spl j
  have hmain : (s.updatePlaceholder ph edit).2.tmSnippet.markers =
      setIndexValue s.tmSnippet.markers ph.index spl := by
    rw [updatePlaceholder_markers, hnv, setIndexValue_eq_mapPh ph.index spl _ 0]
    apply mapPh_congr
    intro k p hkp
    simp only [Nat.zero_add]
    by_cases hk : k = ph.id
    · subst hk
      rw [hp0] at hkp
      have hpp := Option.some.inj hkp
      rw [if_pos (Or.inr rfl), if_pos (by rw [← hpp]; exact hidx0)]
    · have hiff : (k ∈ (((s.setPlaceholderValue ph.id spl).placeholders.filter
            (fun o => o.index == ph.index && o.id != ph.id)).map (fun o => o.id))) ↔
          p.index = ph.index := by
        rw [mem_ids_filter]
        constructor
        · rintro ⟨q, hq, hqidx, -⟩
          rw [hphAt1 k, hkp] at hq
          simp only [Option.map_some'] at hq
          rw [if_neg hk] at hq
          rw [← Option.some.inj hq] at hqidx
          exact hqidx
        · intro hpidx
          refine ⟨p, ?_, hpidx, hk⟩
          rw [hphAt1 k, hkp]
          simp only [Option.map_some']
          rw [if_neg hk]
      by_cases hicase : p.index = ph.index
      · rw [if_pos (Or.inl (hiff.mpr hicase)), if_pos hicase]
      · rw [if_neg ?_, if_neg hicase]
        rintro (hmem | hke)
        · exact hicase (hiff.mp hmem)
        · exact hk hke
  refine ⟨hmain, ?_, ?_, ?_⟩
  · rw [hmain, phAt, markersPlaceholders_setIndexValue, List.get?_map]
    rw [show (markersPlaceholders s.tmSnippet.markers).get? ph.id = some p0 from hp0]
    simp only [Option.map_some']
    rw [if_pos hidx0]
    simp only [Option.some.injEq]
    show applyTransform p0.transform spl = spl
    rw [hp0none]
    rfl
  · show renderMarkers (s.updatePlaceholder ph edit).2.tmSnippet.markers = _
    rw [hmain]
    rfl
  · rw [hmain, markersPlaceholders_setIndexValue, List.map_map]
    congr 1
    funext q
    by_cases h : q.index = ph.index <;> simp [h]

/-- Witness for claim C3 on the mirror snippet `${1:ab} ${1:ab}$0`, editing
`"ab"` to `"aX"` in the first occurrence. -/
theorem updatePlaceholder_splice_witness :
    mirrorSnippet.placeholders.get? mirrorView0.id = some mirrorView0 ∧
    (phAt (mirrorSnippet.updatePlaceholder mirrorView0 spliceEdit).2.tmSnippet.markers
      mirrorView0.id).map TmPlaceholder.toString = some "aX" ∧
    (mirrorSnippet.updatePlaceholder mirrorView0 spliceEdit).2.toString = "aX aX" := by
  refine ⟨by decide, ?_, ?_⟩
  · rw [(updatePlaceholder_splice mirrorSnippet mirrorView0 spliceEdit (by decide) (by decide)
      (by decide) (by decide) (by decide)).2.1]
    decide
  · rw [(updatePlaceholder_splice mirrorSnippet mirrorView0 spliceEdit (by decide) (by decide)
      (by decide) (by decide) (by decide)).2.2.1]
    decide

/-- Claim C4: the returned synthetic-edit list holds exactly one edit per
other occurrence of the edited tabstop index whose freshly recomputed text
(its transform applied to the spliced value) differs from its previously
rendered text, pairing that occurrence's derived range with the recomputed
text, in document order; it is empty when the index has no other occurrence. -/
theorem updatePlaceholder_edits (s : CocSnippet) (ph : CocSnippetPlaceholder)
    (edit : TextEdit) :
    (s.updatePlaceholder ph edit).1 =
      ((s.setPlaceholderValue ph.id (computeNewText ph edit)).placeholders.filter
          (fun o => o.index == ph.index && o.id != ph.id)).filterMap
        (fun p =>
          if txOf (s.setPlaceholderValue ph.id (computeNewText ph edit)).tmSnippet.markers
              p.id (computeNewText ph edit) != p.value
          then some ⟨p.range,
            txOf (s.setPlaceholderValue ph.id (computeNewText ph edit)).tmSnippet.markers
              p.id (computeNewText ph edit)⟩
          else none) ∧
    (((s.setPlaceholderValue ph.id (computeNewText ph edit)).placeholders.filter
        (fun o => o.index == ph.index && o.id != ph.id)) = [] →
      (s.updatePlaceholder ph edit).1 = []) := by
  simp only [CocSnippet.updatePlaceholder]
  set nv := computeNewText ph edit
  set s1 := s.setPlaceholderValue ph.id nv
  set others := s1.placeholders.filter (fun o => o.index == ph.index && o.id != ph.id)
    with hoth
  constructor
  · by_cases hemp : others.isEmpty
    · rw [if_pos hemp]
      rw [List.isEmpty_iff] at hemp
      rw [hemp]
      rfl
    · rw [if_neg hemp]
      show (others.foldl (updStep nv) ([], s1.tmSnippet)).1 = _
      rw [foldl_updStep_fst nv s1.tmSnippet.markers others [] s1.tmSnippet rfl]
      rw [List.nil_append]
  · intro hnil
    have hemp : others.isEmpty := by
      rw [List.isEmpty_iff]
      exact hnil
    rw [if_pos hemp]

/-- Witness for claim C4: in the demo snippet tabstop 1 has no other
occurrence, so the synthetic-edit list is empty. -/
theorem updatePlaceholder_edits_witness :
    ((demoSnippet.setPlaceholderValue demoView1.id
        (computeNewText demoView1 spliceEdit)).placeholders.filter
      (fun o => o.index == demoView1.index && o.id != demoView1.id)) = [] ∧
    (demoSnippet.updatePlaceholder demoView1 spliceEdit).1 = [] := by
  refine ⟨by decide, (updatePlaceholder_edits demoSnippet demoView1 spliceEdit).2 (by decide)⟩

/-!
Concrete evaluations of the embedding on the spec's worked examples.
-/

example : demoSnippet.placeholders.length = 3 := by decide

example : demoSnippet.toString = "foo(bar, baz)" := by decide

example : demoSnippet.placeholders.map (fun v => v.range) =
    [⟨⟨0, 4⟩, ⟨0, 7⟩⟩, ⟨⟨0, 9⟩, ⟨0, 12⟩⟩, ⟨⟨0, 13⟩, ⟨0, 13⟩⟩] := by decide

example : demoSnippet.tmSnippet.maxIndexNumber = 2 := by decide

example : (demoSnippet.getPrevPlaceholder 0).map (fun v => v.isFinalTabstop) = some false := by
  decide

example : (demoSnippet.getNextPlaceholder 2).map (fun v => v.isFinalTabstop) = some true := by
  decide

example : mirrorSnippet.placeholders.map (fun v => (v.id, v.value, v.range.start.character)) =
    [(0, "ab", 0), (1, "ab", 3), (2, "", 5)] := by decide

example : (mirrorSnippet.updatePlaceholder
    ⟨1, 0, 0, ⟨⟨0, 0⟩, ⟨0, 2⟩⟩, "ab", false, false, none⟩
    ⟨⟨⟨0, 1⟩, ⟨0, 2⟩⟩, "X"⟩).1 = [⟨⟨⟨0, 3⟩, ⟨0, 5⟩⟩, "aX"⟩] := by decide

example : (mirrorSnippet.updatePlaceholder
    ⟨1, 0, 0, ⟨⟨0, 0⟩, ⟨0, 2⟩⟩, "ab", false, false, none⟩
    ⟨⟨⟨0, 1⟩, ⟨0, 2⟩⟩, "X"⟩).2.toString = "aX aX" := by decide

example : (transformSnippet.updatePlaceholder
    ⟨1, 0, 0, ⟨⟨0, 0⟩, ⟨0, 0⟩⟩, "", false, false, none⟩
    ⟨⟨⟨0, 0⟩, ⟨0, 0⟩⟩, "X"⟩).1 = [⟨⟨⟨0, 6⟩, ⟨0, 8⟩⟩, "[X]"⟩] := by decide
